import Mathlib

/-!
Verification of the temporal-alignment core of the `338OpenPoseDance`
audio utility (`python/openpose/audio/audio.py`), shallowly embedded over
exact rationals: `nearest_beat_errors` (nearest-beat matching),
`estimate_best_lag` (grid search over candidate lags), `detect_beats`
(onset/tempo estimation wrapper) and `write_beats_csv` (beat serialization).
Sample values, timestamps, lags and scores are modelled as `ℚ`.
-/

namespace BeatAlign

/-- Scan of a list keeping the element of lowest score, updating only on
strict improvement (so the earliest minimiser wins).  This is the shape of
both the 1-D nearest-neighbour query of `nearest_beat_errors` and the
candidate scan of `estimate_best_lag`. -/
def argminScan (sc : ℚ → ℚ) (b : ℚ) (l : List ℚ) : ℚ :=
  l.foldl (fun best x => if sc x < sc best then x else best) b

/-- Nearest element of a beat list to `e` by absolute distance (the 1-D
content of the `cKDTree(beat_times[:, None]).query(event_times[:, None], k=1)`
call; equidistant ties resolve to the earliest beat). -/
def nearestBeat (e : ℚ) : List ℚ → ℚ
  | [] => 0
  | b :: rest => argminScan (fun x => |e - x|) b rest

/-- Embedding of `nearest_beat_errors(event_times, beat_times)`: if either
input is empty return two empty sequences, else pair each event with its
nearest beat and the signed error `(event - nearest) * 1000` in ms. -/
def nearest_beat_errors (event_times beat_times : List ℚ) : List ℚ × List ℚ :=
  if beat_times.length = 0 ∨ event_times.length = 0 then ([], [])
  else
    let nearest := event_times.map (fun e => nearestBeat e beat_times)
    (nearest, List.zipWith (fun e n => (e - n) * 1000) event_times nearest)

/-- Median of a list of rationals, as `np.median` computes it: sort, take
the middle element for odd length, the mean of the two middle elements for
even length. -/
def medianQ (l : List ℚ) : ℚ :=
  let s := List.insertionSort (· ≤ ·) l
  let n := l.length
  if n = 0 then 0
  else if n % 2 = 1 then s.getD (n / 2) 0
  else (s.getD (n / 2 - 1) 0 + s.getD (n / 2) 0) / 2

/-- The candidate-lag grid `np.linspace(-search_ms, search_ms, 121)`. -/
def lagGrid (search_ms : ℚ) : List ℚ :=
  (List.range 121).map (fun (k : ℕ) => -search_ms + (k : ℚ) * (2 * search_ms / 120))

/-- Score of one candidate lag: shift every event time by `lag / 1000`,
run the matcher, and take `np.median(np.abs(errs))`; `none` models the
`np.inf` used when the error list is empty. -/
def lagScoreOpt (event_times beat_times : List ℚ) (lag : ℚ) : Option ℚ :=
  let errs := (nearest_beat_errors (event_times.map (fun e => e + lag / 1000)) beat_times).2
  if errs.length = 0 then none
  else some (medianQ (errs.map (fun x => |x|)))

/-- Pure form of the candidate score in the non-degenerate case. -/
def lagScore (event_times beat_times : List ℚ) (lag : ℚ) : ℚ :=
  medianQ (((nearest_beat_errors (event_times.map (fun e => e + lag / 1000)) beat_times).2).map
    (fun x => |x|))

/-- One iteration of the lag-search loop: update `(best_lag, best_score)`
only when the candidate's score is strictly below the best so far
(`none` is `np.inf`, strictly above every rational and not below itself). -/
def lagStep (event_times beat_times : List ℚ) : ℚ × Option ℚ → ℚ → ℚ × Option ℚ
  | (bl, bs), lag =>
    match lagScoreOpt event_times beat_times lag, bs with
    | none, _ => (bl, bs)
    | some sv, none => (lag, some sv)
    | some sv, some bv => if sv < bv then (lag, some sv) else (bl, bs)

/-- Embedding of `estimate_best_lag(event_times, beat_times, search_ms)`:
return `0.0` if either input is empty, else scan the 121-point grid with
`lagStep` starting from `best_lag, best_score = 0.0, np.inf`. -/
def estimate_best_lag (event_times beat_times : List ℚ) (search_ms : ℚ) : ℚ :=
  if event_times.length = 0 ∨ beat_times.length = 0 then 0
  else ((lagGrid search_ms).foldl (lagStep event_times beat_times) (0, none)).1

/-- Sum of squared samples of analysis frame `f` of the waveform, i.e. of
samples `[f * hop, (f + 1) * hop)`. -/
def frameEnergy (y : List ℚ) (hop : ℕ) (f : ℕ) : ℚ :=
  ((y.drop (f * hop)).take hop).foldl (fun a x => a + x ^ 2) 0

/-- Modelled from the spec: `librosa.onset.onset_strength` is external
library code; per the data model the onset strength curve has
`floor(len(y) / hop) + 1` entries, each a non-negative rate of increase of
spectral energy between consecutive analysis frames. -/
def onset_strength (y : List ℚ) (hop : ℕ) : List ℚ :=
  (List.range (y.length / hop + 1)).map (fun f =>
    max 0 (frameEnergy y hop f - if f = 0 then 0 else frameEnergy y hop (f - 1)))

/-- Modelled from the spec: `librosa.beat.beat_track` is external library
code; on an all-zero onset envelope it returns tempo `0` and no beats (the
Estimator's failure contract), otherwise its dynamic-programming tracker is
abstracted as the parameter `trk`, yielding a tempo estimate and a list of
beat frame indices. -/
def beat_track (trk : List ℚ → ℚ × List ℕ) (oenv : List ℚ) : ℚ × List ℕ :=
  if ∀ v ∈ oenv, v = 0 then (0, []) else trk oenv

/-- Conversion `librosa.frames_to_time(frames, sr, hop_length)`:
`frame_index * hop_length / sample_rate` seconds. -/
def frames_to_time (frames : List ℕ) (sr hop : ℕ) : List ℚ :=
  frames.map (fun (f : ℕ) => ((f : ℚ) * (hop : ℚ)) / (sr : ℚ))

/-- Embedding of `detect_beats(y, sr, hop_length)`: onset envelope, then
beat tracking, then frame-to-time conversion; returns
`(tempo, beat_times, oenv)`. -/
def detect_beats (trk : List ℚ → ℚ × List ℕ) (y : List ℚ) (sr hop : ℕ) :
    ℚ × List ℚ × List ℚ :=
  ((beat_track trk (onset_strength y hop)).1,
   frames_to_time (beat_track trk (onset_strength y hop)).2 sr hop,
   onset_strength y hop)

/-- Decimal digit character of `n % 10`. -/
def digitChar (n : ℕ) : Char :=
  match n % 10 with
  | 0 => '0' | 1 => '1' | 2 => '2' | 3 => '3' | 4 => '4'
  | 5 => '5' | 6 => '6' | 7 => '7' | 8 => '8' | _ => '9'

/-- Exactly `p` decimal digits of `n`, most significant first, padded with
leading zeros. -/
def padDigits : ℕ → ℕ → List Char
  | 0, _ => []
  | p + 1, n => padDigits p (n / 10) ++ [digitChar n]

/-- Round-half-even of a rational to an integer: the rounding Python's
fixed-point float formatting performs at the last kept digit. -/
def roundHalfEven (x : ℚ) : ℤ :=
  if Int.fract x < 1 / 2 then ⌊x⌋
  else if 1 / 2 < Int.fract x then ⌊x⌋ + 1
  else if ⌊x⌋ % 2 = 0 then ⌊x⌋ else ⌊x⌋ + 1

/-- Character-level model of Python's fixed-point formatting
`f"{q:.{prec}f}"` of an exact value: optional sign, integer digits, a
decimal point, then exactly `prec` fractional digits. -/
def formatFixedChars (prec : ℕ) (q : ℚ) : List Char :=
  let scaled := (roundHalfEven (|q| * 10 ^ prec)).toNat
  (if q < 0 then ['-'] else []) ++ Nat.toDigits 10 (scaled / 10 ^ prec)
    ++ '.' :: padDigits prec (scaled % 10 ^ prec)

/-- Python's `f"{q:.{prec}f}"` as a string. -/
def formatFixed (prec : ℕ) (q : ℚ) : String :=
  String.mk (formatFixedChars prec q)

/-- Number of characters after the final decimal point of a rendered
number. -/
def decimalPlaces (s : String) : ℕ :=
  (s.data.reverse.takeWhile (fun c => c ≠ '.')).length

/-- Embedding of `write_beats_csv(out_path, tempo_bpm, beat_times)` as the
list of CSV rows it writes: the tempo header row (tempo to 4 decimal
places), the `beat_time_s` column-header row, then one row per beat time
to 6 decimal places. -/
def write_beats_csv (tempo_bpm : ℚ) (beat_times : List ℚ) : List (List String) :=
  [["tempo_bpm", formatFixed 4 tempo_bpm], ["beat_time_s"]]
    ++ beat_times.map (fun t => [formatFixed 6 t])

end BeatAlign


namespace BeatAlign

theorem argminScan_nil (sc : ℚ → ℚ) (b : ℚ) : argminScan sc b [] = b := rfl

theorem argminScan_cons (sc : ℚ → ℚ) (b x : ℚ) (l : List ℚ) :
    argminScan sc b (x :: l) = argminScan sc (if sc x < sc b then x else b) l := rfl

/-- The strict-improvement scan returns the first minimiser: the input
splits around the result into a prefix of strictly worse elements and a
suffix of no-better elements. -/
theorem argminScan_decomp (sc : ℚ → ℚ) (l : List ℚ) :
    ∀ b : ℚ, ∃ l1 l2, b :: l = l1 ++ argminScan sc b l :: l2 ∧
      (∀ x ∈ l1, sc (argminScan sc b l) < sc x) ∧
      (∀ x ∈ l2, sc (argminScan sc b l) ≤ sc x) := by
  induction l with
  | nil =>
    intro b
    exact ⟨[], [], rfl, by simp, by simp⟩
  | cons x l ih =>
    intro b
    rw [argminScan_cons]
    by_cases hxb : sc x < sc b
    · rw [if_pos hxb]
      obtain ⟨l1, l2, heq, h1, h2⟩ := ih x
      have hrx : sc (argminScan sc x l) ≤ sc x := by
        cases l1 with
        | nil =>
          rw [List.nil_append] at heq
          have hx : x = argminScan sc x l := (List.cons.inj heq).1
          exact le_of_eq (congrArg sc hx).symm
        | cons a l1' =>
          rw [List.cons_append] at heq
          have hx : x = a := (List.cons.inj heq).1
          have ha := h1 a (List.mem_cons_self a l1')
          rw [← hx] at ha
          exact le_of_lt ha
      refine ⟨b :: l1, l2, ?_, ?_, h2⟩
      · rw [List.cons_append, ← heq]
      · intro y hy
        rcases List.mem_cons.mp hy with rfl | hy'
        · exact lt_of_le_of_lt hrx hxb
        · exact h1 y hy'
    · rw [if_neg hxb]
      have hbx : sc b ≤ sc x := le_of_not_lt hxb
      obtain ⟨l1, l2, heq, h1, h2⟩ := ih b
      cases l1 with
      | nil =>
        rw [List.nil_append] at heq
        have hb : b = argminScan sc b l := (List.cons.inj heq).1
        have hl : l = l2 := (List.cons.inj heq).2
        refine ⟨[], x :: l, ?_, by simp, ?_⟩
        · rw [List.nil_append, ← hb]
        · intro y hy
          rcases List.mem_cons.mp hy with rfl | hy'
          · exact le_trans (le_of_eq (congrArg sc hb).symm) hbx
          · exact h2 y (hl ▸ hy')
      | cons a l1' =>
        rw [List.cons_append] at heq
        have hb : b = a := (List.cons.inj heq).1
        have hl : l = l1' ++ argminScan sc b l :: l2 := (List.cons.inj heq).2
        have hrb : sc (argminScan sc b l) < sc b := by
          have ha := h1 a (List.mem_cons_self a l1')
          rw [← hb] at ha
          exact ha
        refine ⟨b :: x :: l1', l2, ?_, ?_, h2⟩
        · rw [List.cons_append, List.cons_append, ← hl]
        · intro y hy
          rcases List.mem_cons.mp hy with rfl | hy'
          · exact hrb
          · rcases List.mem_cons.mp hy' with rfl | hy''
            · exact lt_of_lt_of_le hrb hbx
            · exact h1 y (List.mem_cons_of_mem a hy'')

/-- The scan result is one of the scanned elements. -/
theorem argminScan_mem (sc : ℚ → ℚ) (l : List ℚ) (b : ℚ) :
    argminScan sc b l ∈ b :: l := by
  obtain ⟨l1, l2, heq, -, -⟩ := argminScan_decomp sc l b
  rw [heq]
  exact List.mem_append_right l1 (List.mem_cons_self _ l2)

/-- The scan result has minimal score among the scanned elements. -/
theorem argminScan_min (sc : ℚ → ℚ) (l : List ℚ) (b : ℚ) :
    ∀ y ∈ b :: l, sc (argminScan sc b l) ≤ sc y := by
  obtain ⟨l1, l2, heq, h1, h2⟩ := argminScan_decomp sc l b
  intro y hy
  rw [heq] at hy
  rcases List.mem_append.mp hy with hy1 | hy2
  · exact le_of_lt (h1 y hy1)
  · rcases List.mem_cons.mp hy2 with rfl | hy3
    · exact le_refl _
    · exact h2 y hy3

/-- For a non-empty beat list the nearest beat is a member of the list. -/
theorem nearestBeat_mem (e : ℚ) (beat_times : List ℚ) (hb : beat_times ≠ []) :
    nearestBeat e beat_times ∈ beat_times := by
  cases beat_times with
  | nil => exact absurd rfl hb
  | cons b rest => exact argminScan_mem _ rest b

/-- The nearest beat minimises the absolute distance to `e` over the whole
beat list. -/
theorem nearestBeat_min (e : ℚ) (beat_times : List ℚ) (hb : beat_times ≠ []) :
    ∀ c ∈ beat_times, |e - nearestBeat e beat_times| ≤ |e - c| := by
  cases beat_times with
  | nil => exact absurd rfl hb
  | cons b rest => exact argminScan_min (fun x => |e - x|) rest b

end BeatAlign

namespace BeatAlign

theorem getD_eq_get {α : Type} (l : List α) (d : α) (i : ℕ) (h : i < l.length) :
    l.getD i d = l[i] := by
  simp [List.getD_eq_getElem?_getD, List.getElem?_eq_getElem h]

/-- When both inputs are non-empty the matcher returns the mapped nearest
beats and the zipped signed errors. -/
theorem nearest_beat_errors_eq (event_times beat_times : List ℚ)
    (hb : beat_times ≠ []) (he : event_times ≠ []) :
    nearest_beat_errors event_times beat_times =
      (event_times.map (fun e => nearestBeat e beat_times),
       List.zipWith (fun e n => (e - n) * 1000) event_times
         (event_times.map (fun e => nearestBeat e beat_times))) := by
  rw [nearest_beat_errors, if_neg]
  push_neg
  exact ⟨by simpa using hb, by simpa using he⟩

/-- C1: for every event list and non-empty beat list, `nearest_beat_errors`
returns two lists of the same length and order as the events; entry `i` of
the first is a member of the beat list at minimal absolute distance from
event `i`, and entry `i` of the second is exactly
`(event_times[i] - nearest_beats[i]) * 1000`. -/
theorem matcher_nearest_and_errors (event_times beat_times : List ℚ)
    (hb : beat_times ≠ []) :
    (nearest_beat_errors event_times beat_times).1.length = event_times.length ∧
    (nearest_beat_errors event_times beat_times).2.length = event_times.length ∧
    ∀ i, i < event_times.length →
      (nearest_beat_errors event_times beat_times).1.getD i 0 ∈ beat_times ∧
      (∀ c ∈ beat_times,
        |event_times.getD i 0 - (nearest_beat_errors event_times beat_times).1.getD i 0| ≤
          |event_times.getD i 0 - c|) ∧
      (nearest_beat_errors event_times beat_times).2.getD i 0 =
        (event_times.getD i 0 - (nearest_beat_errors event_times beat_times).1.getD i 0)
          * 1000 := by
  by_cases he : event_times = []
  · subst he
    refine ⟨?_, ?_, ?_⟩ <;> simp [nearest_beat_errors]
  · have heq := nearest_beat_errors_eq event_times beat_times hb he
    rw [heq]
    refine ⟨by simp, by simp [List.length_zipWith], ?_⟩
    intro i hi
    have him : i < (event_times.map (fun e => nearestBeat e beat_times)).length := by
      simpa using hi
    have hnb : (event_times.map (fun e => nearestBeat e beat_times)).getD i 0
        = nearestBeat (event_times.getD i 0) beat_times := by
      rw [getD_eq_get _ _ _ him, List.getElem_map, ← getD_eq_get _ _ _ hi]
    have hzl : i < (List.zipWith (fun e n => (e - n) * 1000) event_times
        (event_times.map (fun e => nearestBeat e beat_times))).length := by
      simp [List.length_zipWith]
      exact hi
    refine ⟨?_, ?_, ?_⟩
    · rw [hnb]
      exact nearestBeat_mem _ _ hb
    · intro c hc
      rw [hnb]
      exact nearestBeat_min _ _ hb c hc
    · rw [getD_eq_get _ _ _ hzl, List.getElem_zipWith, hnb,
        ← getD_eq_get event_times 0 i hi, ← getD_eq_get _ 0 i him, hnb]

/-- C4: when either input sequence is empty the matcher returns two empty
sequences and the lag optimiser returns `0.0`; both are ordinary return
values of total functions, not raised errors. -/
theorem empty_inputs_degenerate (event_times beat_times : List ℚ) (search_ms : ℚ) :
    nearest_beat_errors [] beat_times = ([], []) ∧
    nearest_beat_errors event_times [] = ([], []) ∧
    estimate_best_lag [] beat_times search_ms = 0 ∧
    estimate_best_lag event_times [] search_ms = 0 := by
  refine ⟨?_, ?_, ?_, ?_⟩ <;> simp [nearest_beat_errors, estimate_best_lag]

end BeatAlign

namespace BeatAlign

/-- Each loop iteration either keeps the previous best lag or adopts the
current candidate. -/
theorem lagStep_fst (event_times beat_times : List ℚ) (p : ℚ × Option ℚ) (lag : ℚ) :
    (lagStep event_times beat_times p lag).1 = p.1 ∨
      (lagStep event_times beat_times p lag).1 = lag := by
  rcases p with ⟨bl, bs⟩
  rcases h : lagScoreOpt event_times beat_times lag with _ | sv
  · left
    simp [lagStep, h]
  · rcases bs with _ | bv
    · right
      simp [lagStep, h]
    · by_cases hlt : sv < bv
      · right
        simp [lagStep, h, hlt]
      · left
        simp [lagStep, h, hlt]

/-- The best lag produced by the scan is the initial value or one of the
scanned candidates. -/
theorem lagFold_fst_mem (event_times beat_times : List ℚ) (l : List ℚ) :
    ∀ (bl : ℚ) (bs : Option ℚ),
      (l.foldl (lagStep event_times beat_times) (bl, bs)).1 ∈ bl :: l := by
  induction l with
  | nil =>
    intro bl bs
    exact List.mem_cons_self bl []
  | cons x l ih =>
    intro bl bs
    rw [List.foldl_cons]
    have hfst := lagStep_fst event_times beat_times (bl, bs) x
    have hmem := ih (lagStep event_times beat_times (bl, bs) x).1
      (lagStep event_times beat_times (bl, bs) x).2
    rw [Prod.mk.eta] at hmem
    rcases List.mem_cons.mp hmem with h | h
    · rw [h]
      rcases hfst with h' | h'
      · rw [h']
        exact List.mem_cons_self bl (x :: l)
      · rw [h']
        exact List.mem_cons_of_mem _ (List.mem_cons_self x l)
    · exact List.mem_cons_of_mem _ (List.mem_cons_of_mem x h)

/-- Membership in the 121-point grid means lying at
`-search_ms + k * step` for some `k ≤ 120`, with `step = 2 * search_ms / 120`. -/
theorem lagGrid_mem_iff (search_ms x : ℚ) :
    x ∈ lagGrid search_ms ↔
      ∃ k : ℕ, k ≤ 120 ∧ x = -search_ms + (k : ℚ) * (2 * search_ms / 120) := by
  rw [lagGrid]
  constructor
  · intro hx
    rcases List.mem_map.mp hx with ⟨k, hk, hfx⟩
    exact ⟨k, Nat.lt_succ_iff.mp (List.mem_range.mp hk), hfx.symm⟩
  · rintro ⟨k, hk, hfx⟩
    exact List.mem_map.mpr ⟨k, List.mem_range.mpr (Nat.lt_succ_iff.mpr hk), hfx.symm⟩

/-- Grid points stay inside the closed search window. -/
theorem lagGrid_bounds (search_ms : ℚ) (hs : 0 < search_ms) (x : ℚ)
    (hx : x ∈ lagGrid search_ms) : -search_ms ≤ x ∧ x ≤ search_ms := by
  obtain ⟨k, hk, rfl⟩ := (lagGrid_mem_iff search_ms x).mp hx
  have hk' : (k : ℚ) ≤ 120 := by exact_mod_cast hk
  have hk0 : (0 : ℚ) ≤ (k : ℚ) := Nat.cast_nonneg k
  have hstep : (0 : ℚ) ≤ 2 * search_ms / 120 := by positivity
  constructor
  · nlinarith
  · nlinarith

/-- C3: the returned lag always lies in the closed symmetric search window
`[-search_ms, search_ms]`. -/
theorem best_lag_within_range (event_times beat_times : List ℚ) (search_ms : ℚ)
    (hs : 0 < search_ms) :
    -search_ms ≤ estimate_best_lag event_times beat_times search_ms ∧
      estimate_best_lag event_times beat_times search_ms ≤ search_ms := by
  rw [estimate_best_lag]
  split
  · constructor <;> linarith
  · have hmem := lagFold_fst_mem event_times beat_times (lagGrid search_ms) 0 none
    rcases List.mem_cons.mp hmem with h | h
    · rw [h]
      constructor <;> linarith
    · exact lagGrid_bounds search_ms hs _ h

theorem best_lag_within_range_witness :
    (0 : ℚ) < 300 ∧
      (-(300 : ℚ) ≤ estimate_best_lag [1] [2] 300 ∧
        estimate_best_lag [1] [2] 300 ≤ 300) :=
  ⟨by norm_num, best_lag_within_range [1] [2] 300 (by norm_num)⟩

/-- C10: the returned lag is always one of the 121 grid points
`-search_ms + k * (2 * search_ms / 120)`, `k ≤ 120` (the empty-input value
`0.0` being the middle point `k = 60`); the grid step `2 * search_ms / 120`
equals `search_ms / 60`, which is `5` ms exactly when `search_ms = 300`. -/
theorem best_lag_on_grid (event_times beat_times : List ℚ) (search_ms : ℚ)
    (hs : 0 < search_ms) :
    (∃ k : ℕ, k ≤ 120 ∧ estimate_best_lag event_times beat_times search_ms
        = -search_ms + (k : ℚ) * (2 * search_ms / 120)) ∧
    -search_ms + (60 : ℚ) * (2 * search_ms / 120) = 0 ∧
    2 * search_ms / 120 = search_ms / 60 ∧
    (search_ms / 60 = 5 ↔ search_ms = 300) := by
  have hmid : -search_ms + ((60 : ℕ) : ℚ) * (2 * search_ms / 120) = 0 := by
    push_cast
    ring
  refine ⟨?_, by ring, by ring, ⟨fun h => by linarith, fun h => by rw [h]; norm_num⟩⟩
  rw [estimate_best_lag]
  split
  · exact ⟨60, by norm_num, hmid.symm⟩
  · have hmem := lagFold_fst_mem event_times beat_times (lagGrid search_ms) 0 none
    rcases List.mem_cons.mp hmem with h | h
    · rw [h]
      exact ⟨60, by norm_num, hmid.symm⟩
    · exact (lagGrid_mem_iff search_ms _).mp h

theorem best_lag_on_grid_witness :
    (0 : ℚ) < 300 ∧
      ((∃ k : ℕ, k ≤ 120 ∧ estimate_best_lag [1] [2] 300
          = -300 + (k : ℚ) * (2 * 300 / 120)) ∧
       -(300 : ℚ) + (60 : ℚ) * (2 * 300 / 120) = 0 ∧
       2 * (300 : ℚ) / 120 = 300 / 60 ∧
       ((300 : ℚ) / 60 = 5 ↔ (300 : ℚ) = 300)) :=
  ⟨by norm_num, best_lag_on_grid [1] [2] 300 (by norm_num)⟩

end BeatAlign

namespace BeatAlign

/-- The matcher's error list has one entry per event whenever the beat list
is non-empty. -/
theorem nearest_beat_errors_snd_length (event_times beat_times : List ℚ)
    (hb : beat_times ≠ []) :
    (nearest_beat_errors event_times beat_times).2.length = event_times.length := by
  by_cases he : event_times = []
  · subst he
    simp [nearest_beat_errors]
  · rw [nearest_beat_errors_eq event_times beat_times hb he]
    simp [List.length_zipWith]

/-- With non-empty events and beats every candidate's score is finite and
equals the pure score. -/
theorem lagScoreOpt_eq_some (event_times beat_times : List ℚ)
    (he : event_times ≠ []) (hb : beat_times ≠ []) (lag : ℚ) :
    lagScoreOpt event_times beat_times lag =
      some (lagScore event_times beat_times lag) := by
  rw [lagScoreOpt]
  rw [if_neg]
  · rfl
  · rw [nearest_beat_errors_snd_length _ _ hb]
    simpa using he

/-- Loop step on a finite best score, expressed through the pure score. -/
theorem lagStep_eq_of_some (event_times beat_times : List ℚ)
    (he : event_times ≠ []) (hb : beat_times ≠ []) (bl bv lag : ℚ) :
    lagStep event_times beat_times (bl, some bv) lag =
      if lagScore event_times beat_times lag < bv
        then (lag, some (lagScore event_times beat_times lag))
        else (bl, some bv) := by
  have h := lagScoreOpt_eq_some event_times beat_times he hb lag
  simp only [lagStep, h]

/-- Loop step on the initial infinite best score always adopts the
candidate. -/
theorem lagStep_eq_of_none (event_times beat_times : List ℚ)
    (he : event_times ≠ []) (hb : beat_times ≠ []) (bl lag : ℚ) :
    lagStep event_times beat_times (bl, none) lag =
      (lag, some (lagScore event_times beat_times lag)) := by
  have h := lagScoreOpt_eq_some event_times beat_times he hb lag
  simp only [lagStep, h]

/-- With a finite running best the whole loop is the strict-improvement
argmin scan of the pure scores. -/
theorem lagFold_eq_argminScan (event_times beat_times : List ℚ)
    (he : event_times ≠ []) (hb : beat_times ≠ []) (l : List ℚ) :
    ∀ bl : ℚ,
      l.foldl (lagStep event_times beat_times)
          (bl, some (lagScore event_times beat_times bl)) =
        (argminScan (lagScore event_times beat_times) bl l,
         some (lagScore event_times beat_times
           (argminScan (lagScore event_times beat_times) bl l))) := by
  induction l with
  | nil =>
    intro bl
    rfl
  | cons x l ih =>
    intro bl
    rw [List.foldl_cons, argminScan_cons,
      lagStep_eq_of_some event_times beat_times he hb bl _ x]
    by_cases h : lagScore event_times beat_times x < lagScore event_times beat_times bl
    · rw [if_pos h, if_pos h]
      exact ih x
    · rw [if_neg h, if_neg h]
      exact ih bl

/-- C2: with non-empty inputs and a positive window, `estimate_best_lag`
scans exactly the 121 equally spaced candidates spanning
`[-search_ms, search_ms]`; each candidate `lag` is scored by
`lagScore` (median of the absolute errors of the matcher on the events
shifted by `lag / 1000`), and the result is the candidate of strictly
lowest score, the earliest one in scan order on ties: the grid splits
around it into a strictly worse prefix and a no-better suffix. -/
theorem best_lag_first_strict_minimum (event_times beat_times : List ℚ)
    (search_ms : ℚ) (he : event_times ≠ []) (hb : beat_times ≠ [])
    (hs : 0 < search_ms) :
    (lagGrid search_ms).length = 121 ∧
    (lagGrid search_ms).getD 0 0 = -search_ms ∧
    (lagGrid search_ms).getD 120 0 = search_ms ∧
    (∀ k : ℕ, k + 1 < 121 →
      (lagGrid search_ms).getD (k + 1) 0 - (lagGrid search_ms).getD k 0
        = 2 * search_ms / 120) ∧
    ∃ l1 l2, lagGrid search_ms
        = l1 ++ estimate_best_lag event_times beat_times search_ms :: l2 ∧
      (∀ lag ∈ l1, lagScore event_times beat_times
          (estimate_best_lag event_times beat_times search_ms)
            < lagScore event_times beat_times lag) ∧
      (∀ lag ∈ l2, lagScore event_times beat_times
          (estimate_best_lag event_times beat_times search_ms)
            ≤ lagScore event_times beat_times lag) := by
  have hlen : (lagGrid search_ms).length = 121 := by
    rw [lagGrid]
    simp
  have hgetD : ∀ k : ℕ, k < 121 →
      (lagGrid search_ms).getD k 0 = -search_ms + (k : ℚ) * (2 * search_ms / 120) := by
    intro k hk
    rw [List.getD_eq_getElem?_getD, lagGrid, List.getElem?_map, List.getElem?_range hk]
    rfl
  refine ⟨hlen, ?_, ?_, ?_, ?_⟩
  · rw [hgetD 0 (by norm_num)]
    norm_num
  · rw [hgetD 120 (by norm_num)]
    push_cast
    ring
  · intro k hk
    rw [hgetD (k + 1) hk, hgetD k (by omega)]
    push_cast
    ring
  · obtain ⟨g0, grest, hgrid⟩ := List.exists_cons_of_ne_nil
      (List.ne_nil_of_length_pos (by rw [hlen]; norm_num))
    have hres : estimate_best_lag event_times beat_times search_ms
        = argminScan (lagScore event_times beat_times) g0 grest := by
      rw [estimate_best_lag, if_neg]
      · rw [hgrid, List.foldl_cons,
          lagStep_eq_of_none event_times beat_times he hb 0 g0,
          lagFold_eq_argminScan event_times beat_times he hb grest g0]
      · push_neg
        constructor <;> simpa [List.length_eq_zero] using (by assumption : _)
    obtain ⟨l1, l2, heq, h1, h2⟩ :=
      argminScan_decomp (lagScore event_times beat_times) grest g0
    refine ⟨l1, l2, ?_, ?_, ?_⟩
    · rw [hgrid, heq, hres]
    · intro lag hlag
      rw [hres]
      exact h1 lag hlag
    · intro lag hlag
      rw [hres]
      exact h2 lag hlag

theorem best_lag_first_strict_minimum_witness :
    ([0] : List ℚ) ≠ [] ∧ (0 : ℚ) < 300 ∧
      ((lagGrid 300).length = 121 ∧
       (lagGrid 300).getD 0 0 = -300 ∧
       (lagGrid 300).getD 120 0 = 300 ∧
       (∀ k : ℕ, k + 1 < 121 →
         (lagGrid 300).getD (k + 1) 0 - (lagGrid 300).getD k 0 = 2 * 300 / 120) ∧
       ∃ l1 l2, lagGrid 300 = l1 ++ estimate_best_lag [0] [0] 300 :: l2 ∧
         (∀ lag ∈ l1, lagScore [0] [0] (estimate_best_lag [0] [0] 300)
             < lagScore [0] [0] lag) ∧
         (∀ lag ∈ l2, lagScore [0] [0] (estimate_best_lag [0] [0] 300)
             ≤ lagScore [0] [0] lag)) :=
  ⟨by simp, by norm_num,
    best_lag_first_strict_minimum [0] [0] 300 (by simp) (by simp) (by norm_num)⟩

end BeatAlign

namespace BeatAlign

theorem matcher_nearest_and_errors_witness :
    ([1, 2] : List ℚ) ≠ [] ∧
      ((nearest_beat_errors [3/2] [1, 2]).1.length = ([3/2] : List ℚ).length ∧
       (nearest_beat_errors [3/2] [1, 2]).2.length = ([3/2] : List ℚ).length ∧
       ∀ i, i < ([3/2] : List ℚ).length →
         (nearest_beat_errors [3/2] [1, 2]).1.getD i 0 ∈ ([1, 2] : List ℚ) ∧
         (∀ c ∈ ([1, 2] : List ℚ),
           |([3/2] : List ℚ).getD i 0 - (nearest_beat_errors [3/2] [1, 2]).1.getD i 0| ≤
             |([3/2] : List ℚ).getD i 0 - c|) ∧
         (nearest_beat_errors [3/2] [1, 2]).2.getD i 0 =
           (([3/2] : List ℚ).getD i 0 - (nearest_beat_errors [3/2] [1, 2]).1.getD i 0)
             * 1000) :=
  ⟨by simp, matcher_nearest_and_errors [3/2] [1, 2] (by simp)⟩

/-- C8: the code performs no configuration validation: with the non-positive
search range `search_ms = 0`, `estimate_best_lag` silently returns the
numeric result `0.0` (every grid candidate collapses to `0`) instead of
failing fast with a precondition violation. -/
theorem best_lag_no_validation (event_times beat_times : List ℚ) :
    estimate_best_lag event_times beat_times 0 = 0 := by
  rw [estimate_best_lag]
  split
  · rfl
  · have hmem := lagFold_fst_mem event_times beat_times (lagGrid 0) 0 none
    rcases List.mem_cons.mp hmem with h | h
    · exact h
    · obtain ⟨k, -, hk⟩ := (lagGrid_mem_iff 0 _).mp h
      rw [hk]
      ring

end BeatAlign

namespace BeatAlign

section

attribute [local semireducible] Rat.mul Rat.inv Rat.add Rat.sub

set_option maxRecDepth 100000

/-- C5: on `beat_times = [1, 2, 3, 4]` and `event_times` 50 ms late, the
matcher reports exactly 50 ms on every event, `estimate_best_lag` with a
100 ms window returns `-50` (a grid point, near the ideal correction), and
re-matching the events shifted by that lag leaves a median absolute error
of at most 5 ms (one grid step). -/
theorem concrete_fifty_ms_scenario :
    (nearest_beat_errors [21/20, 41/20, 61/20, 81/20] [1, 2, 3, 4]).2
        = [50, 50, 50, 50] ∧
    estimate_best_lag [21/20, 41/20, 61/20, 81/20] [1, 2, 3, 4] 100 = -50 ∧
    medianQ ((((nearest_beat_errors ([21/20, 41/20, 61/20, 81/20].map
        (fun e => e + -50 / 1000)) [1, 2, 3, 4]).2).map (fun x => |x|))) ≤ 5 :=
  ⟨by decide, by decide, by decide⟩

end

end BeatAlign

namespace BeatAlign

/-- Frame-to-time conversion is monotone in the frame index. -/
theorem frames_to_time_mono (sr hop : ℕ) (a b : ℕ) (hab : a ≤ b) :
    ((a : ℚ) * (hop : ℚ)) / (sr : ℚ) ≤ ((b : ℚ) * (hop : ℚ)) / (sr : ℚ) := by
  rw [div_eq_mul_inv, div_eq_mul_inv]
  apply mul_le_mul_of_nonneg_right
  · apply mul_le_mul_of_nonneg_right
    · exact_mod_cast hab
    · positivity
  · positivity

/-- Frame-to-time conversion preserves a non-decreasing frame sequence. -/
theorem frames_to_time_chain (sr hop : ℕ) (frames : List ℕ)
    (hf : List.Chain' (· ≤ ·) frames) :
    List.Chain' (· ≤ ·) (frames_to_time frames sr hop) := by
  rw [frames_to_time, List.chain'_map]
  exact hf.imp (fun a b hab => frames_to_time_mono sr hop a b hab)

/-- Every converted beat time is non-negative. -/
theorem frames_to_time_nonneg (sr hop : ℕ) (frames : List ℕ) :
    ∀ t ∈ frames_to_time frames sr hop, 0 ≤ t := by
  intro t ht
  rw [frames_to_time] at ht
  rcases List.mem_map.mp ht with ⟨f, -, rfl⟩
  positivity

/-- C6: whatever waveform the Estimator receives, and whichever
non-decreasing frame sequence the external beat tracker yields, the
returned beat sequence is monotonically non-decreasing and every timestamp
in it is non-negative. -/
theorem detect_beats_monotone_nonneg (trk : List ℚ → ℚ × List ℕ) (y : List ℚ)
    (sr hop : ℕ) (htrk : ∀ env, List.Chain' (· ≤ ·) (trk env).2) :
    List.Chain' (· ≤ ·) (detect_beats trk y sr hop).2.1 ∧
      ∀ t ∈ (detect_beats trk y sr hop).2.1, 0 ≤ t := by
  by_cases hz : ∀ v ∈ onset_strength y hop, v = 0
  · have hdb : detect_beats trk y sr hop
        = (0, frames_to_time [] sr hop, onset_strength y hop) := by
      rw [detect_beats, beat_track, if_pos hz]
    rw [hdb]
    exact ⟨frames_to_time_chain sr hop [] (by simp), frames_to_time_nonneg sr hop []⟩
  · have hdb : detect_beats trk y sr hop
        = ((trk (onset_strength y hop)).1,
           frames_to_time (trk (onset_strength y hop)).2 sr hop,
           onset_strength y hop) := by
      rw [detect_beats, beat_track, if_neg hz]
    rw [hdb]
    exact ⟨frames_to_time_chain sr hop _ (htrk _), frames_to_time_nonneg sr hop _⟩

theorem detect_beats_monotone_nonneg_witness :
    List.Chain' (· ≤ ·) ([0, 3, 7] : List ℕ) ∧
      (List.Chain' (· ≤ ·)
          (detect_beats (fun _ => ((120 : ℚ), [0, 3, 7])) [1] 22050 512).2.1 ∧
        ∀ t ∈ (detect_beats (fun _ => ((120 : ℚ), [0, 3, 7])) [1] 22050 512).2.1, 0 ≤ t) := by
  have hc : List.Chain' (· ≤ ·) ([0, 3, 7] : List ℕ) := by
    norm_num [List.chain'_cons, List.chain'_singleton]
  exact ⟨hc, detect_beats_monotone_nonneg (fun _ => ((120 : ℚ), [0, 3, 7])) [1] 22050 512
    (fun _ => hc)⟩

/-- Folding the sum of squares over an all-zero list returns the
accumulator unchanged. -/
theorem foldl_add_sq_zero (l : List ℚ) (h : ∀ x ∈ l, x = 0) :
    ∀ c : ℚ, l.foldl (fun a x => a + x ^ 2) c = c := by
  induction l with
  | nil =>
    intro c
    rfl
  | cons x l ih =>
    intro c
    rw [List.foldl_cons, h x (List.mem_cons_self x l)]
    rw [ih (fun z hz => h z (List.mem_cons_of_mem x hz)) (c + 0 ^ 2)]
    norm_num

/-- All frame energies of an all-silent waveform vanish. -/
theorem frameEnergy_zero (y : List ℚ) (hop f : ℕ) (hy : ∀ x ∈ y, x = 0) :
    frameEnergy y hop f = 0 := by
  rw [frameEnergy]
  exact foldl_add_sq_zero _
    (fun x hx => hy x (List.drop_subset _ _ (List.take_subset _ _ hx))) 0

/-- The onset envelope of an all-silent waveform is all zero. -/
theorem onset_strength_zero (y : List ℚ) (hop : ℕ) (hy : ∀ x ∈ y, x = 0) :
    ∀ v ∈ onset_strength y hop, v = 0 := by
  intro v hv
  rw [onset_strength] at hv
  rcases List.mem_map.mp hv with ⟨f, -, rfl⟩
  rw [frameEnergy_zero y hop f hy]
  by_cases hf : f = 0
  · rw [if_pos hf]
    norm_num
  · rw [if_neg hf, frameEnergy_zero y hop (f - 1) hy]
    norm_num

/-- C7: on an empty or all-silent waveform the Estimator returns tempo `0`
together with an empty beat sequence, as an ordinary return value of a
total function rather than a raised error. -/
theorem detect_beats_silent (trk : List ℚ → ℚ × List ℕ) (y : List ℚ)
    (sr hop : ℕ) (hy : ∀ x ∈ y, x = 0) :
    (detect_beats trk y sr hop).1 = 0 ∧ (detect_beats trk y sr hop).2.1 = [] := by
  have hz := onset_strength_zero y hop hy
  rw [detect_beats, beat_track, if_pos hz]
  exact ⟨rfl, by rw [frames_to_time]; rfl⟩

theorem detect_beats_silent_witness :
    (∀ x ∈ ([0, 0, 0] : List ℚ), x = 0) ∧
      ((detect_beats (fun _ => ((999 : ℚ), [5])) [0, 0, 0] 22050 512).1 = 0 ∧
       (detect_beats (fun _ => ((999 : ℚ), [5])) [0, 0, 0] 22050 512).2.1 = []) :=
  ⟨by decide,
    detect_beats_silent (fun _ => ((999 : ℚ), [5])) [0, 0, 0] 22050 512 (by decide)⟩

end BeatAlign

namespace BeatAlign

/-- Padded digit rendering always yields exactly `p` characters. -/
theorem padDigits_length (p : ℕ) : ∀ n : ℕ, (padDigits p n).length = p := by
  induction p with
  | zero =>
    intro n
    rfl
  | succ p ih =>
    intro n
    rw [padDigits, List.length_append, ih (n / 10)]
    rfl

theorem digitChar_ne_dot (n : ℕ) : digitChar n ≠ '.' := by
  rw [digitChar]
  split <;> decide

theorem padDigits_ne_dot (p : ℕ) : ∀ n : ℕ, ∀ c ∈ padDigits p n, c ≠ '.' := by
  induction p with
  | zero =>
    intro n c hc
    exact absurd hc (List.not_mem_nil c)
  | succ p ih =>
    intro n c hc
    rw [padDigits] at hc
    rcases List.mem_append.mp hc with h | h
    · exact ih (n / 10) c h
    · rw [List.mem_singleton.mp h]
      exact digitChar_ne_dot n

theorem takeWhile_append_sentinel {α : Type} (p : α → Bool) (l1 : List α) (x : α)
    (l2 : List α) (h1 : ∀ c ∈ l1, p c = true) (h2 : p x = false) :
    (l1 ++ x :: l2).takeWhile p = l1 := by
  induction l1 with
  | nil =>
    rw [List.nil_append, List.takeWhile_cons, h2]
    simp
  | cons a l ih =>
    rw [List.cons_append, List.takeWhile_cons, h1 a (List.mem_cons_self a l)]
    rw [ih (fun c hc => h1 c (List.mem_cons_of_mem a hc))]
    simp

/-- Rendered fixed-point numbers have exactly `p` characters after the
decimal point, whatever sign and integer digits precede it. -/
theorem decimalPlaces_sign_digits (sign digits : List Char) (p m : ℕ) :
    decimalPlaces (String.mk (sign ++ digits ++ '.' :: padDigits p m)) = p := by
  rw [decimalPlaces]
  have hrev : (String.mk (sign ++ digits ++ '.' :: padDigits p m)).data.reverse
      = (padDigits p m).reverse ++ '.' :: (digits.reverse ++ sign.reverse) := by
    show (sign ++ digits ++ '.' :: padDigits p m).reverse = _
    simp
  have h1 : ∀ c ∈ (padDigits p m).reverse, (fun c => decide (c ≠ '.')) c = true := by
    intro c hc
    rw [List.mem_reverse] at hc
    simpa using padDigits_ne_dot p m c hc
  have h2 : (fun c => decide (c ≠ '.')) '.' = false := by simp
  rw [hrev, takeWhile_append_sentinel _ _ '.' _ h1 h2, List.length_reverse,
    padDigits_length]

/-- Fixed-point formatting renders exactly `prec` digits after the decimal
point. -/
theorem decimalPlaces_formatFixed (prec : ℕ) (q : ℚ) :
    decimalPlaces (formatFixed prec q) = prec :=
  decimalPlaces_sign_digits (if q < 0 then ['-'] else [])
    (Nat.toDigits 10 ((roundHalfEven (|q| * 10 ^ prec)).toNat / 10 ^ prec)) prec
    ((roundHalfEven (|q| * 10 ^ prec)).toNat % 10 ^ prec)

end BeatAlign

namespace BeatAlign

section

attribute [local semireducible] Rat.mul Rat.inv Rat.add Rat.sub

set_option maxRecDepth 100000

/-- C9 counterexample: with tempo `120` and no beats the serialization has
two rows — the tempo header and the `beat_time_s` column-header row — so
the output is not a tempo header row followed directly by one row per beat
timestamp (which would give a single row here). -/
theorem write_beats_csv_extra_header_row :
    write_beats_csv 120 [] = [["tempo_bpm", "120.0000"], ["beat_time_s"]] ∧
    (write_beats_csv 120 []).length ≠ 1 + ([] : List ℚ).length :=
  ⟨by decide, by decide⟩

end

/-- C9 (amended): the serialization is a tempo header row holding the tempo
to 4 decimal places, then a `beat_time_s` column-header row, then one row
per beat timestamp to 6 decimal places. -/
theorem write_beats_csv_layout (tempo_bpm : ℚ) (beat_times : List ℚ) :
    (write_beats_csv tempo_bpm beat_times).length = 2 + beat_times.length ∧
    (write_beats_csv tempo_bpm beat_times).getD 0 []
      = ["tempo_bpm", formatFixed 4 tempo_bpm] ∧
    decimalPlaces (formatFixed 4 tempo_bpm) = 4 ∧
    (write_beats_csv tempo_bpm beat_times).getD 1 [] = ["beat_time_s"] ∧
    ∀ i, i < beat_times.length →
      (write_beats_csv tempo_bpm beat_times).getD (2 + i) []
          = [formatFixed 6 (beat_times.getD i 0)] ∧
        decimalPlaces (formatFixed 6 (beat_times.getD i 0)) = 6 := by
  refine ⟨by simp [write_beats_csv]; omega, rfl, decimalPlaces_formatFixed 4 tempo_bpm,
    rfl, ?_⟩
  intro i hi
  refine ⟨?_, decimalPlaces_formatFixed 6 _⟩
  rw [write_beats_csv]
  rw [List.getD_append_right _ _ _ _ (by simp)]
  have hlen2 : ([["tempo_bpm", formatFixed 4 tempo_bpm],
      ["beat_time_s"]] : List (List String)).length = 2 := rfl
  rw [hlen2]
  have hsub : 2 + i - 2 = i := by omega
  rw [hsub]
  have him : i < (beat_times.map (fun t => [formatFixed 6 t])).length := by
    simpa using hi
  rw [getD_eq_get _ _ _ him, List.getElem_map, ← getD_eq_get beat_times 0 i hi]

end BeatAlign
